import Mathlib

/-!
Verification development for the chess rules engine and AI of the repository
(src/utils/chess.ts, src/utils/chessAI.ts, and the board-updating logic of the
ChessBoard component).  The TypeScript code is shallowly embedded: a board is a
total function from integer coordinates to optional pieces (the real arrays are
8 by 8; reads the program performs outside that range are rendered faithfully at
each site, and a JavaScript TypeError -- reading an index of an undefined row --
is modelled by returning none from an Option-valued function).
-/

/-- Piece colors, from the type union in types/chess. -/
inductive Color
  | white
  | black
deriving DecidableEq, Repr

/-- Piece kinds, from the type union in types/chess. -/
inductive PieceType
  | pawn
  | knight
  | bishop
  | rook
  | queen
  | king
deriving DecidableEq, Repr

/-- A chess piece: kind plus color (interface ChessPiece). -/
structure Piece where
  type : PieceType
  color : Color
deriving DecidableEq, Repr

/-- A (row, col) pair of integers (interface Position). -/
structure Position where
  row : Int
  col : Int
deriving DecidableEq, Repr

/-- The board: an assignment of an optional piece to every pair of integer
coordinates.  The program only ever stores pieces at coordinates in [0,7]. -/
abbrev Board := Int → Int → Option Piece

/-- Board update at one square (an array element assignment in the source). -/
def setRC (b : Board) (r c : Int) (v : Option Piece) : Board :=
  fun r2 c2 => if r2 = r ∧ c2 = c then v else b r2 c2

/-- Opponent of a color (the repeated ternary in chess.ts). -/
def oppColor (c : Color) : Color :=
  if c = Color.white then Color.black else Color.white

/-- Forward direction of a pawn (white moves toward row 0). -/
def pawnDir (c : Color) : Int :=
  if c = Color.white then -1 else 1

/-- Start row of a pawn of a color. -/
def pawnStartRow (c : Color) : Int :=
  if c = Color.white then 6 else 1

/-- Unit step from x toward y (the direction ternaries of isPathClear). -/
def dirStep (x y : Int) : Int :=
  if x < y then 1 else if y < x then -1 else 0

/-- isPathClear from chess.ts: every square strictly between (fr,fc) and
(tr,tc) along the stepping line is empty.  The source while-loop visits
fr + i*dir for i = 1 .. n-1 where n = max |tr-fr| |tc-fc|; at every call site
the two squares are aligned and in range, so this bounded rendering walks
exactly the squares of the source loop. -/
def isPathClear (b : Board) (fr fc tr tc : Int) : Bool :=
  (List.range (max (tr - fr).natAbs (tc - fc).natAbs)).all fun i =>
    decide (i = 0) ||
      decide (b (fr + dirStep fr tr * (i : Int)) (fc + dirStep fc tc * (i : Int)) = none)

/-- The target-square test of isValidPieceMove: false only when the target
holds a piece of the moving color. -/
def pieceTargetOk (b : Board) (tr tc : Int) (pcolor : Color) : Bool :=
  match b tr tc with
  | some t => !(decide (t.color = pcolor))
  | none => true

/-- The pawn case of isValidPieceMove: forward one step onto an empty square,
double step from the start row over an empty square, or a diagonal step onto an
occupied square. -/
def pawnMoveOk (b : Board) (fr fc tr tc : Int) (pcolor : Color) : Bool :=
  (decide (fc = tc) && decide (b tr tc = none) &&
    (decide (tr = fr + pawnDir pcolor) ||
      (decide (fr = pawnStartRow pcolor) && decide (tr = fr + 2 * pawnDir pcolor) &&
        decide (b (fr + pawnDir pcolor) fc = none)))) ||
  (decide ((fc - tc).natAbs = 1) && decide (tr = fr + pawnDir pcolor) &&
    !(decide (b tr tc = none)))

/-- isValidPieceMove from chess.ts: the pure movement-pattern test.  Bounds of
the destination are checked first; the from square is read directly (every call
site of the source passes an in-range, occupied from square). -/
def isValidPieceMove (b : Board) (fr fc tr tc : Int) : Bool :=
  if tr < 0 ∨ 7 < tr ∨ tc < 0 ∨ 7 < tc then false
  else
    match b fr fc with
    | none => false
    | some piece =>
      if fr = tr ∧ fc = tc then false
      else if !(pieceTargetOk b tr tc piece.color) then false
      else
        match piece.type with
        | PieceType.pawn => pawnMoveOk b fr fc tr tc piece.color
        | PieceType.rook =>
            (decide (tr = fr) || decide (tc = fc)) && isPathClear b fr fc tr tc
        | PieceType.bishop =>
            decide ((tr - fr).natAbs = (tc - fc).natAbs) && isPathClear b fr fc tr tc
        | PieceType.queen =>
            (decide (tr = fr) || decide (tc = fc) ||
              decide ((tr - fr).natAbs = (tc - fc).natAbs)) && isPathClear b fr fc tr tc
        | PieceType.king =>
            decide ((tr - fr).natAbs ≤ 1 ∧ (tc - fc).natAbs ≤ 1)
        | PieceType.knight =>
            decide (((tr - fr).natAbs = 2 ∧ (tc - fc).natAbs = 1) ∨
              ((tr - fr).natAbs = 1 ∧ (tc - fc).natAbs = 2))

/-- findKingPosition from chess.ts: first square (row-major) holding the king
of the color, if any. -/
def findKingPosition (b : Board) (color : Color) : Option Position :=
  (List.range 8).findSome? fun r =>
    (List.range 8).findSome? fun c =>
      match b (r : Int) (c : Int) with
      | some p =>
          if p.type = PieceType.king ∧ p.color = color then
            some ⟨(r : Int), (c : Int)⟩
          else none
      | none => none

/-- isSquareAttacked from chess.ts: some piece of byColor has a valid piece
move onto (row, col). -/
def isSquareAttacked (b : Board) (row col : Int) (byColor : Color) : Bool :=
  (List.range 8).any fun r =>
    (List.range 8).any fun c =>
      match b (r : Int) (c : Int) with
      | some p => decide (p.color = byColor) && isValidPieceMove b (r : Int) (c : Int) row col
      | none => false

/-- isKingInCheck from chess.ts: false when the king is absent. -/
def isKingInCheck (b : Board) (color : Color) : Bool :=
  match findKingPosition b color with
  | none => false
  | some kp => isSquareAttacked b kp.row kp.col (oppColor color)

/-- Corner file of the rook used in the castling branch (kingside when the
king moves toward higher files). -/
def rookColOf (fc tc : Int) : Int :=
  if fc < tc then 7 else 0

/-- Destination file of the rook in the castling branch. -/
def rookDestOf (fc tc : Int) : Int :=
  if fc < tc then tc - 1 else tc + 1

/-- Direction of the castling king (the step variable of the source). -/
def stepOf (fc tc : Int) : Int :=
  if fc < tc then 1 else -1

/-- Files visited by the source loop over the squares strictly between the
king and the corner rook. -/
def betweenColsB (fc tc c : Int) : Bool :=
  if fc < tc then decide (fc < c ∧ c < 7) else decide (0 < c ∧ c < fc)

/-- The board simulated by the castling branch: source cleared, corner
cleared, king on the destination, rook beside it (assignments in source
order, the last write to a square winning). -/
def castleBoard (b : Board) (fr fc tc : Int) (piece rook : Piece) : Board :=
  setRC
    (setRC (setRC (setRC b fr fc none) fr (rookColOf fc tc) none) fr tc (some piece))
    fr (rookDestOf fc tc) (some rook)

/-- The castling branch of isValidMove: a rook of the right color on the
corner, king not in check, empty squares strictly between king and rook, no
attacked transit square (the king crosses fc + step and tc), and the
simulated position not in check.  The source walks the strictly-between
files with a loop; a bounded scan of files 0..7 visits the same squares
because the corner guard has ensured the corner piece is a rook, hence the
king stands strictly inside the rank. -/
def castleCheck (b : Board) (fr fc tc : Int) (piece : Piece) : Bool :=
  match b fr (rookColOf fc tc) with
  | none => false
  | some rook =>
    decide (rook.type = PieceType.rook) && decide (rook.color = piece.color) &&
    !(isKingInCheck b piece.color) &&
    ((List.range 8).all fun n =>
      !(betweenColsB fc tc (n : Int)) || decide (b fr (n : Int) = none)) &&
    !(isSquareAttacked b fr (fc + stepOf fc tc) (oppColor piece.color)) &&
    !(isSquareAttacked b fr tc (oppColor piece.color)) &&
    !(isKingInCheck (castleBoard b fr fc tc piece rook) piece.color)

/-- Row of the pawn captured en passant, relative to the target square
(the captureRow expression of the source). -/
def pawnCaptureDir (c : Color) : Int :=
  if c = Color.white then 1 else -1

/-- Outcome of evaluating the en passant conditions of isValidMove. -/
inductive EpOutcome
  | fault
  | reject
  | flag (isEp : Bool)
deriving DecidableEq, Repr

/-- The en passant classification of isValidMove: fault models the TypeError
the source raises reading board[toRow] when the pawn targets an en passant
square whose row is outside 0..7; reject models the early return false; flag
carries the isEnPassant flag.  The comparison of board[toRow][toCol] with
null is false in the source when toCol is out of range (the read yields
undefined, not null), rendered by the explicit range conjuncts. -/
def epClassify (b : Board) (fr fc tr tc : Int) (piece : Piece)
    (ep : Option Position) : EpOutcome :=
  match ep with
  | none => EpOutcome.flag false
  | some t =>
    if piece.type = PieceType.pawn ∧ tr = t.row ∧ tc = t.col then
      if tr < 0 ∨ 7 < tr then EpOutcome.fault
      else if 0 ≤ tc ∧ tc ≤ 7 ∧ b tr tc = none then
        if fr = t.row + pawnCaptureDir piece.color ∧ (fc - t.col).natAbs = 1 then
          match b (t.row + pawnCaptureDir piece.color) t.col with
          | some cp =>
              if cp.type = PieceType.pawn ∧ ¬(cp.color = piece.color) then
                EpOutcome.flag true
              else EpOutcome.reject
          | none => EpOutcome.reject
        else EpOutcome.reject
      else EpOutcome.flag false
    else EpOutcome.flag false

/-- Removal of the pawn captured en passant (the newBoard[captureRow][captureCol]
assignment of both the legality simulation and the appliers). -/
def epRemove (b1 : Board) (piece : Piece) (ep : Option Position) : Board :=
  match ep with
  | none => b1
  | some t => setRC b1 (t.row + pawnCaptureDir piece.color) t.col none

/-- The board the non-castling part of isValidMove simulates: origin cleared,
en-passant-captured pawn removed when the move is an en passant capture,
moving piece on the destination. -/
def simBoard (b : Board) (fr fc tr tc : Int) (piece : Piece) (isEp : Bool)
    (ep : Option Position) : Board :=
  setRC
    (if isEp then epRemove (setRC b fr fc none) piece ep else setRC b fr fc none)
    tr tc (some piece)

/-- Body of isValidMove once the moving piece has been read. -/
def isValidMoveAux (b : Board) (fr fc tr tc : Int) (piece : Piece)
    (ep : Option Position) : Option Bool :=
  if piece.type = PieceType.king ∧ fr = tr ∧ (tc - fc).natAbs = 2 then
    some (castleCheck b fr fc tc piece)
  else
    match epClassify b fr fc tr tc piece ep with
    | EpOutcome.fault => none
    | EpOutcome.reject => some false
    | EpOutcome.flag isEp =>
      if isEp = false ∧ isValidPieceMove b fr fc tr tc = false then some false
      else some (!(isKingInCheck (simBoard b fr fc tr tc piece isEp ep) piece.color))

/-- isValidMove from chess.ts.  none models a TypeError: the read of
board[fromRow][fromCol] faults when fromRow is outside 0..7 (board[fromRow]
is undefined); when fromRow is in range but fromCol is not, the read yields
undefined and the falsy test returns false, like an empty square. -/
def isValidMove (b : Board) (fr fc tr tc : Int) (ep : Option Position) : Option Bool :=
  if fr < 0 ∨ 7 < fr then none
  else
    Option.elim (if fc < 0 ∨ 7 < fc then none else b fr fc)
      (some false)
      (fun piece => isValidMoveAux b fr fc tr tc piece ep)

/-- hasAnyLegalMove from chess.ts: scans every square of the color and every
destination for an accepted move. -/
def hasAnyLegalMove (b : Board) (color : Color) (ep : Option Position) : Bool :=
  (List.range 8).any fun fr =>
    (List.range 8).any fun fc =>
      (match b (fr : Int) (fc : Int) with
        | some p => decide (p.color = color)
        | none => false) &&
      ((List.range 8).any fun tr =>
        (List.range 8).any fun tc =>
          decide (isValidMove b (fr : Int) (fc : Int) (tr : Int) (tc : Int) ep = some true))

/-- isCheckmate from chess.ts. -/
def isCheckmate (b : Board) (color : Color) (ep : Option Position) : Bool :=
  if isKingInCheck b color then !(hasAnyLegalMove b color ep) else false

/-- isStalemate from chess.ts. -/
def isStalemate (b : Board) (color : Color) (ep : Option Position) : Bool :=
  if isKingInCheck b color then false else !(hasAnyLegalMove b color ep)

/-- Rendering of the specification notion that a legal move exists for a
color: some in-range square holds a piece of the color from which isValidMove
accepts some in-range destination.  Stated from the words of the spec, to be
compared with hasAnyLegalMove. -/
def existsLegalMove (b : Board) (color : Color) (ep : Option Position) : Prop :=
  ∃ fr fc tr tc : Int,
    (0 ≤ fr ∧ fr ≤ 7) ∧ (0 ≤ fc ∧ fc ≤ 7) ∧ (0 ≤ tr ∧ tr ≤ 7) ∧ (0 ≤ tc ∧ tc ≤ 7) ∧
    (∃ p, b fr fc = some p ∧ p.color = color) ∧
    isValidMove b fr fc tr tc ep = some true

/-- The isEnPassantMove test of the board-updating handlers in the ChessBoard
component (handleSquareClick and the AI effect): pawn, destination equal to
the en passant target, empty destination, one file away.  Reads are in range
at every call site. -/
def epMoveFlag (b : Board) (fc tr tc : Int) (piece : Piece) (ep : Option Position) : Bool :=
  match ep with
  | none => false
  | some t =>
    decide (piece.type = PieceType.pawn) && decide (tr = t.row) && decide (tc = t.col) &&
    decide (b tr tc = none) && decide ((fc - tc).natAbs = 1)

/-- The rook relocation of the castling case of the board-updating handlers:
performed only when a rook stands on the corner of the side the king moved
toward (the read happens after the origin square was cleared). -/
def castleRelocate (b2 : Board) (fr fc tc : Int) : Board :=
  match b2 fr (rookColOf fc tc) with
  | none => b2
  | some rook =>
    if rook.type = PieceType.rook then
      setRC (setRC b2 fr (rookColOf fc tc) none) fr (rookDestOf fc tc) (some rook)
    else b2

/-- The board produced by the move-applying handler of the ChessBoard
component (handleSquareClick): origin cleared, en-passant-captured pawn
removed, castling rook relocated, moving piece placed on the destination
(promotion substitutes the placed piece afterwards and is outside this
board transformation). -/
def applyMove (b : Board) (fr fc tr tc : Int) (ep : Option Position) : Board :=
  match b fr fc with
  | none => b
  | some piece =>
    let b1 := setRC b fr fc none
    let b2 := if epMoveFlag b fc tr tc piece ep then epRemove b1 piece ep else b1
    let b3 :=
      if decide (piece.type = PieceType.king) && decide (fr = tr) &&
          decide ((tc - fc).natAbs = 2) then
        castleRelocate b2 fr fc tc
      else b2
    setRC b3 tr tc (some piece)

/-- pieceValues from chessAI.ts. -/
def pieceValues (t : PieceType) : Int :=
  match t with
  | PieceType.pawn => 1
  | PieceType.knight => 3
  | PieceType.bishop => 3
  | PieceType.rook => 5
  | PieceType.queen => 9
  | PieceType.king => 1000

/-- evaluateBoard from chessAI.ts: signed material, positive for black. -/
def evaluateBoard (b : Board) : Int :=
  (List.range 8).foldl
    (fun acc r =>
      (List.range 8).foldl
        (fun acc2 c =>
          match b (r : Int) (c : Int) with
          | some p =>
              acc2 + (if p.color = Color.black then pieceValues p.type else -(pieceValues p.type))
          | none => acc2)
        acc)
    0

/-- getAllValidMoves from chessAI.ts: encoded moves (row = from index 0..63,
col = to index 0..63), enumerated in source order, with no en passant target
passed to isValidMove. -/
def getAllValidMoves (b : Board) (color : Color) : List Position :=
  (List.range 8).flatMap fun fr =>
    (List.range 8).flatMap fun fc =>
      match b (fr : Int) (fc : Int) with
      | some p =>
        if p.color = color then
          (List.range 8).flatMap fun tr =>
            (List.range 8).flatMap fun tc =>
              if isValidMove b (fr : Int) (fc : Int) (tr : Int) (tc : Int) none = some true then
                [⟨(fr : Int) * 8 + (fc : Int), (tr : Int) * 8 + (tc : Int)⟩]
              else []
        else []
      | none => []

/-- decodeIndex from chessAI.ts.  Every call site passes an index in 0..63,
where truncating and flooring division agree. -/
def decodeIndex (i : Int) : Position :=
  ⟨i / 8, i % 8⟩

/-- The auto-queen promotion of the AI board update. -/
def promoteIfNeeded (p : Piece) (tr : Int) : Piece :=
  if p.type = PieceType.pawn ∧ (tr = 0 ∨ tr = 7) then ⟨PieceType.queen, p.color⟩ else p

/-- makeMove from chessAI.ts: decodes fromPos.row and toPos.col, returns the
board unchanged when the decoded origin is empty, otherwise clears the origin
and places the (possibly promoted) piece on the decoded destination. -/
def makeMove (b : Board) (fromPos toPos : Position) : Board :=
  Option.elim (b (decodeIndex fromPos.row).row (decodeIndex fromPos.row).col) b
    (fun movingPiece =>
      setRC (setRC b (decodeIndex fromPos.row).row (decodeIndex fromPos.row).col none)
        (decodeIndex toPos.col).row (decodeIndex toPos.col).col
        (some (promoteIfNeeded movingPiece (decodeIndex toPos.col).row)))

/-- Extended integers modelling the JavaScript numbers -Infinity and
Infinity alongside the finite evaluation scores. -/
inductive EInt
  | negInf
  | fin (n : Int)
  | posInf
deriving DecidableEq, Repr

/-- Strict comparison of extended integers (the < and > of the source). -/
def EInt.ltE : EInt → EInt → Bool
  | _, EInt.negInf => false
  | EInt.negInf, _ => true
  | EInt.fin a, EInt.fin b => decide (a < b)
  | EInt.fin _, EInt.posInf => true
  | EInt.posInf, _ => false

/-- Non-strict comparison of extended integers. -/
def EInt.leE (a b : EInt) : Bool := !(EInt.ltE b a)

/-- Math.max on extended integers. -/
def maxE (a b : EInt) : EInt := if EInt.ltE a b then b else a

/-- Math.min on extended integers. -/
def minE (a b : EInt) : EInt := if EInt.ltE b a then b else a

/-- The color whose turn it is inside minimax. -/
def minimaxColor (isMax : Bool) : Color :=
  if isMax then Color.black else Color.white

/-- One level of minimax from chessAI.ts: terminal scores at positions with
no legal move (minus infinity for the mated maximizer, infinity for the mated
minimizer, zero for stalemate), otherwise a fold of max or min over the
children. -/
def minimaxStep (next : Board → Bool → EInt) (b : Board) (isMax : Bool) : EInt :=
  if getAllValidMoves b (minimaxColor isMax) = [] then
    if isKingInCheck b (minimaxColor isMax) then
      (if isMax then EInt.negInf else EInt.posInf)
    else EInt.fin 0
  else if isMax then
    (getAllValidMoves b (minimaxColor isMax)).foldl
      (fun acc m => maxE acc (next (makeMove b ⟨m.row, 0⟩ ⟨0, m.col⟩) false)) EInt.negInf
  else
    (getAllValidMoves b (minimaxColor isMax)).foldl
      (fun acc m => minE acc (next (makeMove b ⟨m.row, 0⟩ ⟨0, m.col⟩) true)) EInt.posInf

/-- minimax from chessAI.ts, by recursion on the depth. -/
def minimax : Nat → Board → Bool → EInt
  | 0 => fun b _ => EInt.fin (evaluateBoard b)
  | Nat.succ d => minimaxStep (minimax d)

/-- Value the hard difficulty assigns to a root move: the white reply level
of the 2-ply search. -/
def rootValue (b : Board) (m : Position) : EInt :=
  minimax 1 (makeMove b ⟨m.row, 0⟩ ⟨0, m.col⟩) false

/-- Value of the piece captured by an encoded move (zero when the decoded
destination is empty), from the medium branch of getAIMove. -/
def capScore (b : Board) (m : Position) : Int :=
  match b (decodeIndex m.col).row (decodeIndex m.col).col with
  | some p => pieceValues p.type
  | none => 0

/-- The accumulation loop of the medium branch of getAIMove: strict
improvement resets the candidate list, an equal score appends. -/
def mediumLoop (b : Board) : List Position → List Position → EInt → List Position
  | [], best, _ => best
  | m :: rest, best, bs =>
    if EInt.ltE bs (EInt.fin (capScore b m)) then
      mediumLoop b rest [m] (EInt.fin (capScore b m))
    else if bs = EInt.fin (capScore b m) then
      mediumLoop b rest (best ++ [m]) bs
    else mediumLoop b rest best bs

/-- Candidate list of the medium difficulty (bestMoves at the random draw). -/
def mediumBestMoves (b : Board) : List Position :=
  mediumLoop b (getAllValidMoves b Color.black) [] EInt.negInf

/-- The accumulation loop of the hard branch of getAIMove: keeps the first
move whose value strictly exceeds every earlier value. -/
def hardLoop (b : Board) : List Position → Option Position → EInt → Option Position
  | [], best, _ => best
  | m :: rest, best, bv =>
    if EInt.ltE bv (rootValue b m) then hardLoop b rest (some m) (rootValue b m)
    else hardLoop b rest best bv

/-- Difficulty levels of the AI. -/
inductive Difficulty
  | easy
  | medium
  | hard
deriving DecidableEq, Repr

/-- getAIMove from chessAI.ts.  The uniform random draw of the easy and
medium branches is modelled by an index argument reduced modulo the candidate
list length: as rnd ranges over the naturals the selected elements are
exactly the possible outcomes of Math.floor(Math.random() * length). -/
def getAIMove (b : Board) (difficulty : Difficulty) (rnd : Nat) : Option Position :=
  if getAllValidMoves b Color.black = [] then none
  else
    match difficulty with
    | Difficulty.easy =>
        (getAllValidMoves b Color.black).get?
          (rnd % (getAllValidMoves b Color.black).length)
    | Difficulty.medium =>
        (mediumBestMoves b).get? (rnd % (mediumBestMoves b).length)
    | Difficulty.hard =>
        hardLoop b (getAllValidMoves b Color.black) none EInt.negInf

/-- Test board: white king e1, white pawn e2, black king e8 (rows 7, 6, 0 of
file 4). -/
def wb1 : Board := fun r c =>
  if r = 7 ∧ c = 4 then some ⟨PieceType.king, Color.white⟩
  else if r = 6 ∧ c = 4 then some ⟨PieceType.pawn, Color.white⟩
  else if r = 0 ∧ c = 4 then some ⟨PieceType.king, Color.black⟩
  else none

/-- Test board: black king a8, white king h1. -/
def wb2 : Board := fun r c =>
  if r = 0 ∧ c = 0 then some ⟨PieceType.king, Color.black⟩
  else if r = 7 ∧ c = 7 then some ⟨PieceType.king, Color.white⟩
  else none

/-- Test board: white king e1, white rook h1, black king a8; kingside
castling is available. -/
def wb3 : Board := fun r c =>
  if r = 7 ∧ c = 4 then some ⟨PieceType.king, Color.white⟩
  else if r = 7 ∧ c = 7 then some ⟨PieceType.rook, Color.white⟩
  else if r = 0 ∧ c = 0 then some ⟨PieceType.king, Color.black⟩
  else none

/-- Test board: white pawn on (3,4), black pawn on (3,5) as if it just made a
double step over (2,5), kings on the e file. -/
def wb4 : Board := fun r c =>
  if r = 3 ∧ c = 4 then some ⟨PieceType.pawn, Color.white⟩
  else if r = 3 ∧ c = 5 then some ⟨PieceType.pawn, Color.black⟩
  else if r = 7 ∧ c = 4 then some ⟨PieceType.king, Color.white⟩
  else if r = 0 ∧ c = 4 then some ⟨PieceType.king, Color.black⟩
  else none

/-- Test board: white king on (7,6), white rook on (7,7), black king a8; a
castling-shaped king move to file 8 exercises the out-of-range destination. -/
def wb5 : Board := fun r c =>
  if r = 7 ∧ c = 6 then some ⟨PieceType.king, Color.white⟩
  else if r = 7 ∧ c = 7 then some ⟨PieceType.rook, Color.white⟩
  else if r = 0 ∧ c = 0 then some ⟨PieceType.king, Color.black⟩
  else none

/-- Test board: black rook a8, white knight f8, white king h1, black king on
(3,3); black has a capturing move. -/
def wb7 : Board := fun r c =>
  if r = 0 ∧ c = 0 then some ⟨PieceType.rook, Color.black⟩
  else if r = 0 ∧ c = 5 then some ⟨PieceType.knight, Color.white⟩
  else if r = 7 ∧ c = 7 then some ⟨PieceType.king, Color.white⟩
  else if r = 3 ∧ c = 3 then some ⟨PieceType.king, Color.black⟩
  else none

/-- Files strictly between the castling king and the corner rook, as a
proposition (the specification reading of the emptiness condition). -/
def betweenColsP (fc tc c : Int) : Prop :=
  if fc < tc then fc < c ∧ c < 7 else 0 < c ∧ c < fc

theorem setRC_eq (b : Board) (r c : Int) (v : Option Piece) : setRC b r c v r c = v := by
  simp [setRC]

theorem setRC_ne (b : Board) (r c : Int) (v : Option Piece) (r2 c2 : Int)
    (h : ¬(r2 = r ∧ c2 = c)) : setRC b r c v r2 c2 = b r2 c2 := by
  simp [setRC, h]

theorem setRC_comm (b : Board) (r1 c1 r2 c2 : Int) (v1 v2 : Option Piece)
    (h : ¬(r1 = r2 ∧ c1 = c2)) :
    setRC (setRC b r1 c1 v1) r2 c2 v2 = setRC (setRC b r2 c2 v2) r1 c1 v1 := by
  funext r c
  simp only [setRC]
  split_ifs <;> first | rfl | (exfalso; omega)

theorem ltE_irrefl (a : EInt) : EInt.ltE a a = false := by
  cases a <;> simp [EInt.ltE]

theorem ltE_asymm {a b : EInt} (h : EInt.ltE a b = true) : EInt.ltE b a = false := by
  cases a <;> cases b <;> simp_all [EInt.ltE] <;> omega

theorem ltE_trans {a b c : EInt} (h1 : EInt.ltE a b = true) (h2 : EInt.ltE b c = true) :
    EInt.ltE a c = true := by
  cases a <;> cases b <;> cases c <;> simp_all [EInt.ltE] <;> omega

theorem le_lt_transE {a b c : EInt} (h1 : EInt.ltE b a = false) (h2 : EInt.ltE b c = true) :
    EInt.ltE a c = true := by
  cases a <;> cases b <;> cases c <;> simp_all [EInt.ltE] <;> omega

theorem lt_le_transE {a b c : EInt} (h1 : EInt.ltE a b = true) (h2 : EInt.ltE c b = false) :
    EInt.ltE a c = true := by
  cases a <;> cases b <;> cases c <;> simp_all [EInt.ltE] <;> omega

theorem le_transE {a b c : EInt} (h1 : EInt.ltE b a = false) (h2 : EInt.ltE c b = false) :
    EInt.ltE c a = false := by
  cases a <;> cases b <;> cases c <;> simp_all [EInt.ltE] <;> omega

theorem antisymmE {a b : EInt} (h1 : EInt.ltE b a = false) (h2 : EInt.ltE a b = false) :
    a = b := by
  cases a <;> cases b <;> simp_all [EInt.ltE] <;> omega

theorem negInf_ltE {a : EInt} (h : a ≠ EInt.negInf) : EInt.ltE EInt.negInf a = true := by
  cases a <;> simp_all [EInt.ltE]

theorem maxE_left {a b : EInt} (h : EInt.ltE a b = false) : maxE a b = a := by
  simp [maxE, h]

theorem maxE_right {a b : EInt} (h : EInt.ltE a b = true) : maxE a b = b := by
  simp [maxE, h]

theorem le_maxE_left (a b : EInt) : EInt.ltE (maxE a b) a = false := by
  by_cases h : EInt.ltE a b = true
  · rw [maxE_right h]; exact ltE_asymm h
  · rw [maxE_left (by simpa using h)]; exact ltE_irrefl a

theorem minE_ne_negInf {a b : EInt} (h1 : a ≠ EInt.negInf) (h2 : b ≠ EInt.negInf) :
    minE a b ≠ EInt.negInf := by
  unfold minE; split <;> assumption

theorem foldl_maxE_init {α : Type} (f : α → EInt) :
    ∀ (l : List α) (a : EInt), EInt.ltE (l.foldl (fun acc x => maxE acc (f x)) a) a = false := by
  intro l
  induction l with
  | nil => intro a; exact ltE_irrefl a
  | cons x xs ih =>
    intro a
    have h1 := ih (maxE a (f x))
    have h2 := le_maxE_left a (f x)
    exact le_transE h2 h1

theorem foldl_maxE_elem {α : Type} (f : α → EInt) :
    ∀ (l : List α) (a : EInt) (x : α), x ∈ l →
      EInt.ltE (l.foldl (fun acc x => maxE acc (f x)) a) (f x) = false := by
  intro l
  induction l with
  | nil => intro a x hx; cases hx
  | cons y ys ih =>
    intro a x hx
    rcases List.mem_cons.mp hx with h | h
    · subst h
      have h1 : EInt.ltE (maxE a (f x)) (f x) = false := by
        by_cases hc : EInt.ltE a (f x) = true
        · rw [maxE_right hc]; exact ltE_irrefl _
        · rw [maxE_left (by simpa using hc)]; simpa using hc
      exact le_transE h1 (foldl_maxE_init f ys (maxE a (f x)))
    · exact ih (maxE a (f y)) x h

theorem foldl_maxE_cases {α : Type} (f : α → EInt) :
    ∀ (l : List α) (a : EInt),
      l.foldl (fun acc x => maxE acc (f x)) a = a ∨
      ∃ x ∈ l, l.foldl (fun acc x => maxE acc (f x)) a = f x := by
  intro l
  induction l with
  | nil => intro a; exact Or.inl rfl
  | cons y ys ih =>
    intro a
    rcases ih (maxE a (f y)) with h | ⟨x, hx, h⟩
    · by_cases hc : EInt.ltE a (f y) = true
      · right; exact ⟨y, List.mem_cons_self y ys, by rw [List.foldl_cons, h, maxE_right hc]⟩
      · left; rw [List.foldl_cons, h, maxE_left (by simpa using hc)]
    · right; exact ⟨x, List.mem_cons_of_mem y hx, by rw [List.foldl_cons, h]⟩

theorem foldl_minE_ne_negInf {α : Type} (f : α → EInt) :
    ∀ (l : List α) (a : EInt), a ≠ EInt.negInf → (∀ x ∈ l, f x ≠ EInt.negInf) →
      l.foldl (fun acc x => minE acc (f x)) a ≠ EInt.negInf := by
  intro l
  induction l with
  | nil => intro a ha _; exact ha
  | cons y ys ih =>
    intro a ha hf
    exact ih (minE a (f y)) (minE_ne_negInf ha (hf y (List.mem_cons_self y ys)))
      (fun x hx => hf x (List.mem_cons_of_mem y hx))

theorem any_range8 (f : Nat → Bool) :
    (List.range 8).any f = true ↔ ∃ n, n < 8 ∧ f n = true := by
  simp [List.any_eq_true, List.mem_range]

theorem all_range8 (f : Nat → Bool) :
    (List.range 8).all f = true ↔ ∀ n, n < 8 → f n = true := by
  simp [List.all_eq_true, List.mem_range]

theorem between_all_iff (b : Board) (fr fc tc : Int) (h3 : 0 ≤ fc) (h4 : fc ≤ 7) :
    (((List.range 8).all fun n =>
      !(betweenColsB fc tc (n : Int)) || decide (b fr (n : Int) = none)) = true) ↔
    ∀ c : Int, betweenColsP fc tc c → b fr c = none := by
  rw [all_range8]
  constructor
  · intro h c hc
    have hrange : 0 ≤ c ∧ c ≤ 7 := by
      unfold betweenColsP at hc; split at hc <;> omega
    have h2 := h c.toNat (by omega)
    rw [Int.toNat_of_nonneg hrange.1] at h2
    have hb : betweenColsB fc tc c = true := by
      unfold betweenColsB; unfold betweenColsP at hc
      split at hc <;> simp_all
    rw [hb] at h2
    simpa using h2
  · intro h n _
    by_cases hb : betweenColsB fc tc (n : Int) = true
    · have hcp : betweenColsP fc tc (n : Int) := by
        unfold betweenColsB at hb; unfold betweenColsP
        split at hb <;> simp_all
      simp [hb, h _ hcp]
    · rw [Bool.not_eq_true] at hb
      simp [hb]

theorem isValidMove_eq_aux (b : Board) (fr fc tr tc : Int) (ep : Option Position)
    (piece : Piece) (h1 : ¬(fr < 0 ∨ 7 < fr)) (h2 : ¬(fc < 0 ∨ 7 < fc))
    (hp : b fr fc = some piece) :
    isValidMove b fr fc tr tc ep = isValidMoveAux b fr fc tr tc piece ep := by
  unfold isValidMove
  rw [if_neg h1, if_neg h2, hp]
  rfl

theorem isValidMove_no_piece (b : Board) (fr fc tr tc : Int) (ep : Option Position)
    (h1 : ¬(fr < 0 ∨ 7 < fr)) (h2 : fc < 0 ∨ 7 < fc ∨ b fr fc = none) :
    isValidMove b fr fc tr tc ep = some false := by
  unfold isValidMove
  rw [if_neg h1]
  rcases h2 with h | h | h
  · rw [if_pos (Or.inl h)]; rfl
  · rw [if_pos (Or.inr h)]; rfl
  · by_cases hc : fc < 0 ∨ 7 < fc
    · rw [if_pos hc]; rfl
    · rw [if_neg hc, h]; rfl

theorem castleCheck_iff (b : Board) (fr fc tc : Int) (piece : Piece)
    (h3 : 0 ≤ fc) (h4 : fc ≤ 7) :
    castleCheck b fr fc tc piece = true ↔
    ∃ rook, b fr (rookColOf fc tc) = some rook ∧ rook.type = PieceType.rook ∧
      rook.color = piece.color ∧ isKingInCheck b piece.color = false ∧
      (∀ c : Int, betweenColsP fc tc c → b fr c = none) ∧
      isSquareAttacked b fr (fc + stepOf fc tc) (oppColor piece.color) = false ∧
      isSquareAttacked b fr tc (oppColor piece.color) = false ∧
      isKingInCheck (castleBoard b fr fc tc piece rook) piece.color = false := by
  unfold castleCheck
  cases hr : b fr (rookColOf fc tc) with
  | none => simp
  | some rook =>
    simp only [Option.some.injEq, Bool.and_eq_true, decide_eq_true_eq,
      Bool.not_eq_true', between_all_iff b fr fc tc h3 h4, and_assoc]
    constructor
    · rintro ⟨ht, hc, hk, hall, ha1, ha2, hsim⟩
      exact ⟨rook, rfl, ht, hc, hk, hall, ha1, ha2, hsim⟩
    · rintro ⟨rook2, hr2, ht, hc, hk, hall, ha1, ha2, hsim⟩
      cases hr2
      exact ⟨ht, hc, hk, hall, ha1, ha2, hsim⟩

theorem epClassify_none_eq (b : Board) (fr fc tr tc : Int) (piece : Piece) :
    epClassify b fr fc tr tc piece none = EpOutcome.flag false := rfl

theorem epClassify_flag_true_elim {b : Board} {fr fc tr tc : Int} {piece : Piece}
    {ep : Option Position} (h : epClassify b fr fc tr tc piece ep = EpOutcome.flag true) :
    ∃ t, ep = some t ∧ piece.type = PieceType.pawn ∧ tr = t.row ∧ tc = t.col ∧
      ¬(tr < 0 ∨ 7 < tr) ∧ (0 ≤ tc ∧ tc ≤ 7) ∧ b tr tc = none ∧
      fr = t.row + pawnCaptureDir piece.color ∧ (fc - t.col).natAbs = 1 ∧
      ∃ cp, b (t.row + pawnCaptureDir piece.color) t.col = some cp ∧
        cp.type = PieceType.pawn ∧ ¬(cp.color = piece.color) := by
  cases ep with
  | none => cases h
  | some t =>
    simp only [epClassify] at h
    refine ⟨t, rfl, ?_⟩
    split at h
    · next hcond =>
      split at h
      · cases h
      · next hfr =>
        split at h
        · next hrange =>
          split at h
          · next hcap =>
            split at h
            · next cp hcp =>
              split at h
              · next hgood =>
                exact ⟨hcond.1, hcond.2.1, hcond.2.2, hfr, ⟨hrange.1, hrange.2.1⟩,
                  hrange.2.2, hcap.1, hcap.2, cp, hcp, hgood.1, hgood.2⟩
              · cases h
            · cases h
          · cases h
        · cases h
    · cases h

theorem epClassify_not_flag_false {b : Board} {fr fc tr tc : Int} {piece : Piece}
    {t : Position} (hcond : piece.type = PieceType.pawn ∧ tr = t.row ∧ tc = t.col)
    (hfr : ¬(tr < 0 ∨ 7 < tr)) (hrange : 0 ≤ tc ∧ tc ≤ 7 ∧ b tr tc = none) :
    ¬(epClassify b fr fc tr tc piece (some t) = EpOutcome.flag false) := by
  intro h
  simp only [epClassify] at h
  rw [if_pos hcond, if_neg hfr, if_pos hrange] at h
  split at h
  · split at h
    · split at h
      · cases h
      · cases h
    · cases h
  · cases h

theorem epClassify_fault_elim {b : Board} {fr fc tr tc : Int} {piece : Piece}
    {ep : Option Position} (h : epClassify b fr fc tr tc piece ep = EpOutcome.fault) :
    ∃ t, ep = some t ∧ piece.type = PieceType.pawn ∧ tr = t.row ∧ tc = t.col ∧
      (tr < 0 ∨ 7 < tr) := by
  cases ep with
  | none => cases h
  | some t =>
    simp only [epClassify] at h
    refine ⟨t, rfl, ?_⟩
    split at h
    · next hcond =>
      split at h
      · next hout => exact ⟨hcond.1, hcond.2.1, hcond.2.2, hout⟩
      · split at h
        · split at h
          · split at h
            · split at h
              · cases h
              · cases h
            · cases h
          · cases h
        · cases h
    · cases h

theorem validPieceMove_pawn_occupied {b : Board} {fr fc tr tc : Int} {piece : Piece}
    (hp : b fr fc = some piece) (hpt : piece.type = PieceType.pawn) (hne : ¬(fc = tc))
    (h : isValidPieceMove b fr fc tr tc = true) : ¬(b tr tc = none) := by
  unfold isValidPieceMove at h
  split at h
  · cases h
  · split at h
    · cases h
    · rename_i piece2 heq
      rw [hp] at heq
      injection heq with he
      subst he
      split at h
      · cases h
      · split at h
        · cases h
        · split at h <;> rename_i heqt
          · unfold pawnMoveOk at h
            simp only [Bool.or_eq_true, Bool.and_eq_true, decide_eq_true_eq,
              Bool.not_eq_true', decide_eq_false_iff_not] at h
            tauto
          all_goals (rw [hpt] at heqt; cases heqt)

/-- C1: for every board, in-range from and to squares and any en passant
target, if isValidMove accepts the move then the board obtained by applying it
(origin cleared, en-passant-captured pawn removed, castling rook relocated,
moved piece placed on the destination) leaves isKingInCheck false for the
moving color. -/
theorem legalMove_no_self_check (b : Board) (fr fc tr tc : Int) (ep : Option Position)
    (piece : Piece)
    (h1 : 0 ≤ fr) (h2 : fr ≤ 7) (h3 : 0 ≤ fc) (h4 : fc ≤ 7)
    (h5 : 0 ≤ tr) (h6 : tr ≤ 7) (h7 : 0 ≤ tc) (h8 : tc ≤ 7)
    (hp : b fr fc = some piece)
    (hv : isValidMove b fr fc tr tc ep = some true) :
    isKingInCheck (applyMove b fr fc tr tc ep) piece.color = false := by
  rw [isValidMove_eq_aux b fr fc tr tc ep piece (by omega) (by omega) hp] at hv
  unfold isValidMoveAux at hv
  unfold applyMove
  simp only [hp]
  by_cases hshape : piece.type = PieceType.king ∧ fr = tr ∧ (tc - fc).natAbs = 2
  · rw [if_pos hshape] at hv
    have hcc : castleCheck b fr fc tc piece = true := Option.some.inj hv
    rw [castleCheck_iff b fr fc tc piece h3 h4] at hcc
    obtain ⟨rook, hrk, hrt, hrc, hnotchk, hbetween, hat1, hat2, hsim⟩ := hcc
    have hef : epMoveFlag b fc tr tc piece ep = false := by
      unfold epMoveFlag
      cases ep with
      | none => rfl
      | some t => simp [hshape.1]
    have hflag : (decide (piece.type = PieceType.king) && decide (fr = tr) &&
        decide ((tc - fc).natAbs = 2)) = true := by
      simp [hshape.1, hshape.2.1, hshape.2.2]
    simp only [hef, Bool.false_eq_true, if_false, hflag, if_true]
    have hcorner : ¬(rookColOf fc tc = fc) := by
      intro hcf
      rw [hcf, hp] at hrk
      have he : piece = rook := by injection hrk
      rw [← he] at hrt
      rw [hshape.1] at hrt
      cases hrt
    have hread : setRC b fr fc none fr (rookColOf fc tc) = some rook := by
      rw [setRC_ne b fr fc none fr (rookColOf fc tc) (fun hh => hcorner hh.2)]
      exact hrk
    unfold castleRelocate
    simp only [hread, hrt, if_true]
    have hrd : ¬(fr = fr ∧ rookDestOf fc tc = tc) := by
      rintro ⟨-, hh⟩
      unfold rookDestOf at hh
      split at hh <;> omega
    rw [← hshape.2.1]
    rw [setRC_comm (setRC (setRC b fr fc none) fr (rookColOf fc tc) none)
      fr (rookDestOf fc tc) fr tc (some rook) (some piece) hrd]
    unfold castleBoard at hsim
    exact hsim
  · rw [if_neg hshape] at hv
    have hflag : (decide (piece.type = PieceType.king) && decide (fr = tr) &&
        decide ((tc - fc).natAbs = 2)) = false := by
      by_contra hcon
      rw [Bool.not_eq_false] at hcon
      simp only [Bool.and_eq_true, decide_eq_true_eq] at hcon
      exact hshape ⟨hcon.1.1, hcon.1.2, hcon.2⟩
    simp only [hflag, Bool.false_eq_true, if_false]
    cases hec : epClassify b fr fc tr tc piece ep with
    | fault => simp [hec] at hv
    | reject => simp [hec] at hv
    | flag isEp =>
      simp only [hec] at hv
      split at hv
      · simp at hv
      · simp only [Option.some.injEq, Bool.not_eq_true'] at hv
        cases isEp with
        | true =>
          obtain ⟨t, hept, hpt, htr, htc, _, hcrange, hempty, hfr2, habs, cp, hcp, hcpt, hcpc⟩ :=
            epClassify_flag_true_elim hec
          subst hept
          have hef : epMoveFlag b fc tr tc piece (some t) = true := by
            unfold epMoveFlag
            simp only [Bool.and_eq_true, decide_eq_true_eq]
            refine ⟨⟨⟨⟨hpt, htr⟩, htc⟩, hempty⟩, ?_⟩
            rw [htc]
            exact habs
          simp only [hef, if_true]
          unfold simBoard at hv
          simp only [if_true] at hv
          exact hv
        | false =>
          have hef : epMoveFlag b fc tr tc piece ep = false := by
            cases ep with
            | none => rfl
            | some t =>
              by_contra hcon
              rw [Bool.not_eq_false] at hcon
              unfold epMoveFlag at hcon
              simp only [Bool.and_eq_true, decide_eq_true_eq] at hcon
              obtain ⟨⟨⟨⟨hpt, htr⟩, htc⟩, hempty⟩, habs⟩ := hcon
              exact epClassify_not_flag_false ⟨hpt, htr, htc⟩ (by omega) ⟨h7, h8, hempty⟩ hec
          simp only [hef, Bool.false_eq_true, if_false]
          unfold simBoard at hv
          simp only [Bool.false_eq_true, if_false] at hv
          exact hv

theorem legalMove_no_self_check_witness :
    wb1 6 4 = some ⟨PieceType.pawn, Color.white⟩ ∧
    isValidMove wb1 6 4 5 4 none = some true ∧
    isKingInCheck (applyMove wb1 6 4 5 4 none) (Piece.mk PieceType.pawn Color.white).color = false :=
  ⟨by decide, by decide,
    legalMove_no_self_check wb1 6 4 5 4 none ⟨PieceType.pawn, Color.white⟩
      (by decide) (by decide) (by decide) (by decide) (by decide) (by decide) (by decide)
      (by decide) (by decide) (by decide)⟩

theorem hasAnyLegalMove_iff (b : Board) (color : Color) (ep : Option Position) :
    hasAnyLegalMove b color ep = true ↔ existsLegalMove b color ep := by
  unfold hasAnyLegalMove existsLegalMove
  rw [any_range8]
  constructor
  · rintro ⟨nfr, hnfr, hfr⟩
    rw [any_range8] at hfr
    obtain ⟨nfc, hnfc, hfc⟩ := hfr
    rw [Bool.and_eq_true] at hfc
    obtain ⟨hpc, hrest⟩ := hfc
    rw [any_range8] at hrest
    obtain ⟨ntr, hntr, htr⟩ := hrest
    rw [any_range8] at htr
    obtain ⟨ntc, hntc, htc⟩ := htr
    rw [decide_eq_true_eq] at htc
    cases hb : b (nfr : Int) (nfc : Int) with
    | none => rw [hb] at hpc; cases hpc
    | some p =>
      simp only [hb, decide_eq_true_eq] at hpc
      exact ⟨nfr, nfc, ntr, ntc, ⟨by omega, by omega⟩, ⟨by omega, by omega⟩,
        ⟨by omega, by omega⟩, ⟨by omega, by omega⟩, ⟨p, hb, hpc⟩, htc⟩
  · rintro ⟨fr, fc, tr, tc, ⟨hfr0, hfr7⟩, ⟨hfc0, hfc7⟩, ⟨htr0, htr7⟩, ⟨htc0, htc7⟩,
      ⟨p, hb, hpc⟩, hvm⟩
    have e1 : ((fr.toNat : Nat) : Int) = fr := Int.toNat_of_nonneg hfr0
    have e2 : ((fc.toNat : Nat) : Int) = fc := Int.toNat_of_nonneg hfc0
    have e3 : ((tr.toNat : Nat) : Int) = tr := Int.toNat_of_nonneg htr0
    have e4 : ((tc.toNat : Nat) : Int) = tc := Int.toNat_of_nonneg htc0
    refine ⟨fr.toNat, by omega, ?_⟩
    rw [any_range8]
    refine ⟨fc.toNat, by omega, ?_⟩
    rw [Bool.and_eq_true]
    constructor
    · rw [e1, e2, hb]
      simp [hpc]
    · rw [any_range8]
      refine ⟨tr.toNat, by omega, ?_⟩
      rw [any_range8]
      refine ⟨tc.toNat, by omega, ?_⟩
      rw [decide_eq_true_eq, e1, e2, e3, e4]
      exact hvm

/-- C2: isCheckmate holds exactly when the king is in check and no legal move
exists for the color, and isStalemate holds exactly when the king is not in
check and no legal move exists, where a legal move exists when some in-range
square holds a piece of the color from which isValidMove accepts some
destination. -/
theorem checkmate_stalemate_characterization (b : Board) (color : Color)
    (ep : Option Position) :
    (isCheckmate b color ep = true ↔
      (isKingInCheck b color = true ∧ ¬ existsLegalMove b color ep)) ∧
    (isStalemate b color ep = true ↔
      (isKingInCheck b color = false ∧ ¬ existsLegalMove b color ep)) := by
  have hno : (!(hasAnyLegalMove b color ep)) = true ↔ ¬ existsLegalMove b color ep := by
    rw [Bool.not_eq_true', ← Bool.not_eq_true, hasAnyLegalMove_iff]
  constructor
  · unfold isCheckmate
    by_cases hk : isKingInCheck b color = true
    · rw [if_pos hk, hno]
      simp [hk]
    · rw [if_neg hk]
      simp only [Bool.false_eq_true, false_iff]
      rintro ⟨hc, -⟩
      exact hk hc
  · unfold isStalemate
    by_cases hk : isKingInCheck b color = true
    · rw [if_pos hk]
      simp only [Bool.false_eq_true, false_iff]
      rintro ⟨hc, -⟩
      rw [hk] at hc
      cases hc
    · rw [if_neg hk, hno]
      rw [Bool.not_eq_true] at hk
      simp [hk]

/-- C3: a candidate move of a king by exactly two files along its own rank is
accepted by isValidMove exactly when a rook of the king color stands on the
corner file of that side, the king is not currently in check, every file
strictly between king and rook is empty, neither square the king transits
(including the destination) is attacked by the opponent, and the simulated
post-castle position (king and rook relocated) leaves the king out of
check. -/
theorem castling_characterization (b : Board) (fr fc tc : Int) (ep : Option Position)
    (piece : Piece)
    (h1 : 0 ≤ fr) (h2 : fr ≤ 7) (h3 : 0 ≤ fc) (h4 : fc ≤ 7)
    (hp : b fr fc = some piece) (hk : piece.type = PieceType.king)
    (hd : (tc - fc).natAbs = 2) :
    isValidMove b fr fc fr tc ep = some true ↔
    ∃ rook, b fr (rookColOf fc tc) = some rook ∧ rook.type = PieceType.rook ∧
      rook.color = piece.color ∧ isKingInCheck b piece.color = false ∧
      (∀ c : Int, betweenColsP fc tc c → b fr c = none) ∧
      isSquareAttacked b fr (fc + stepOf fc tc) (oppColor piece.color) = false ∧
      isSquareAttacked b fr tc (oppColor piece.color) = false ∧
      isKingInCheck (castleBoard b fr fc tc piece rook) piece.color = false := by
  rw [isValidMove_eq_aux b fr fc fr tc ep piece (by omega) (by omega) hp]
  unfold isValidMoveAux
  rw [if_pos ⟨hk, rfl, hd⟩]
  rw [← castleCheck_iff b fr fc tc piece h3 h4]
  constructor
  · intro h
    exact Option.some.inj h
  · intro h
    rw [h]

theorem castling_characterization_witness :
    wb3 7 4 = some ⟨PieceType.king, Color.white⟩ ∧
    (isValidMove wb3 7 4 7 6 none = some true ↔
      ∃ rook, wb3 7 (rookColOf 4 6) = some rook ∧ rook.type = PieceType.rook ∧
        rook.color = (Piece.mk PieceType.king Color.white).color ∧
        isKingInCheck wb3 (Piece.mk PieceType.king Color.white).color = false ∧
        (∀ c : Int, betweenColsP 4 6 c → wb3 7 c = none) ∧
        isSquareAttacked wb3 7 (4 + stepOf 4 6)
          (oppColor (Piece.mk PieceType.king Color.white).color) = false ∧
        isSquareAttacked wb3 7 6 (oppColor (Piece.mk PieceType.king Color.white).color) = false ∧
        isKingInCheck (castleBoard wb3 7 4 6 (Piece.mk PieceType.king Color.white) rook)
          (Piece.mk PieceType.king Color.white).color = false) :=
  ⟨by decide,
    castling_characterization wb3 7 4 6 none ⟨PieceType.king, Color.white⟩
      (by decide) (by decide) (by decide) (by decide) (by decide) (by decide) (by decide)⟩

/-- C4: a pawn move onto the supplied en passant target square is treated as
an en passant capture only when the target square is empty, the pawn stands
one file away on the capture rank, and the square directly behind the target
holds an enemy pawn; for an accepted en passant move the check-safety
simulation clears the captured pawn square (not the empty target square,
which receives the moving pawn) and isValidMove returns the negated check
test of that simulated board. -/
theorem en_passant_characterization (b : Board) (fr fc : Int) (t : Position) (piece : Piece)
    (h1 : 0 ≤ fr) (h2 : fr ≤ 7) (h3 : 0 ≤ fc) (h4 : fc ≤ 7)
    (hp : b fr fc = some piece) (hpt : piece.type = PieceType.pawn) :
    (epClassify b fr fc t.row t.col piece (some t) = EpOutcome.flag true →
      b t.row t.col = none ∧
      fr = t.row + pawnCaptureDir piece.color ∧ (fc - t.col).natAbs = 1 ∧
      ∃ cp, b (t.row + pawnCaptureDir piece.color) t.col = some cp ∧
        cp.type = PieceType.pawn ∧ ¬(cp.color = piece.color)) ∧
    (epClassify b fr fc t.row t.col piece (some t) = EpOutcome.flag true →
      simBoard b fr fc t.row t.col piece true (some t)
        (t.row + pawnCaptureDir piece.color) t.col = none ∧
      simBoard b fr fc t.row t.col piece true (some t) t.row t.col = some piece ∧
      isValidMove b fr fc t.row t.col (some t) =
        some (!(isKingInCheck (simBoard b fr fc t.row t.col piece true (some t))
          piece.color))) := by
  constructor
  · intro h
    obtain ⟨t2, ht2, -, htr, htc, -, -, hempty, hfr2, habs, cp, hcp, hcpt, hcpc⟩ :=
      epClassify_flag_true_elim h
    have ht2e : t = t2 := by injection ht2
    subst ht2e
    exact ⟨hempty, hfr2, habs, cp, hcp, hcpt, hcpc⟩
  · intro h
    have hdir : ¬(t.row + pawnCaptureDir piece.color = t.row ∧ t.col = t.col) := by
      rintro ⟨hh, -⟩
      unfold pawnCaptureDir at hh
      split at hh <;> omega
    refine ⟨?_, ?_, ?_⟩
    · unfold simBoard
      simp only [if_true]
      rw [setRC_ne _ t.row t.col (some piece) _ _ hdir]
      unfold epRemove
      exact setRC_eq _ _ _ _
    · unfold simBoard
      simp only [if_true]
      exact setRC_eq _ _ _ _
    · rw [isValidMove_eq_aux b fr fc t.row t.col (some t) piece (by omega) (by omega) hp]
      unfold isValidMoveAux
      have hnotshape : ¬(piece.type = PieceType.king ∧ fr = t.row ∧ (t.col - fc).natAbs = 2) := by
        rintro ⟨hh, -, -⟩
        rw [hpt] at hh
        cases hh
      rw [if_neg hnotshape]
      simp only [h]
      have hcond : ¬(true = false ∧ isValidPieceMove b fr fc t.row t.col = false) := by
        rintro ⟨hh, -⟩
        cases hh
      rw [if_neg hcond]

theorem en_passant_characterization_witness :
    epClassify wb4 3 4 2 5 (Piece.mk PieceType.pawn Color.white) (some ⟨2, 5⟩) =
      EpOutcome.flag true ∧
    (wb4 2 5 = none ∧
      (3 : Int) = 2 + pawnCaptureDir Color.white ∧ ((4 : Int) - 5).natAbs = 1 ∧
      ∃ cp, wb4 (2 + pawnCaptureDir Color.white) 5 = some cp ∧
        cp.type = PieceType.pawn ∧
        ¬(cp.color = (Piece.mk PieceType.pawn Color.white).color)) :=
  ⟨by decide,
    (en_passant_characterization wb4 3 4 ⟨2, 5⟩ ⟨PieceType.pawn, Color.white⟩
      (by decide) (by decide) (by decide) (by decide) (by decide) (by decide)).1 (by decide)⟩

/-- C5 counterexample: isValidMove does fault (modelled none) on an
out-of-range from row, and accepts a castling-shaped move onto the
out-of-range file 8, so it neither evaluates totally nor returns false on
every out-of-range destination. -/
theorem isValidMove_out_of_range_cex :
    isValidMove wb5 (-1) 0 0 0 none = none ∧
    isValidMove wb5 7 6 7 8 none = some true :=
  ⟨by decide, by decide⟩

/-- C5 (amended): with the from row in range and an en passant target whose
row is in range (or no target), isValidMove always evaluates to a boolean
(never faults); it returns false whenever the from file is out of range or
the source square is empty; and it returns false for any out-of-range
destination unless the source holds a king moving exactly two files along
its own rank (the castling branch does not bound the destination file).
An out-of-range from row faults instead of returning false. -/
theorem isValidMove_total_in_range (b : Board) (fr fc tr tc : Int) (ep : Option Position)
    (h1 : 0 ≤ fr) (h2 : fr ≤ 7)
    (hep : ∀ t, ep = some t → 0 ≤ t.row ∧ t.row ≤ 7) :
    (¬(isValidMove b fr fc tr tc ep = none)) ∧
    ((fc < 0 ∨ 7 < fc ∨ b fr fc = none) → isValidMove b fr fc tr tc ep = some false) ∧
    ((tr < 0 ∨ 7 < tr ∨ tc < 0 ∨ 7 < tc) →
      (∀ piece, b fr fc = some piece →
        ¬(piece.type = PieceType.king ∧ fr = tr ∧ (tc - fc).natAbs = 2)) →
      isValidMove b fr fc tr tc ep = some false) := by
  have h1' : ¬(fr < 0 ∨ 7 < fr) := by omega
  by_cases hsq : fc < 0 ∨ 7 < fc ∨ b fr fc = none
  · have hf := isValidMove_no_piece b fr fc tr tc ep h1' hsq
    exact ⟨by rw [hf]; simp, fun _ => hf, fun _ _ => hf⟩
  · push_neg at hsq
    obtain ⟨hfc1, hfc2, hne⟩ := hsq
    cases hpz : b fr fc with
    | none => exact absurd hpz hne
    | some piece =>
      rw [isValidMove_eq_aux b fr fc tr tc ep piece h1' (by omega) hpz]
      have hnofault : ¬(epClassify b fr fc tr tc piece ep = EpOutcome.fault) := by
        intro hcon
        obtain ⟨t, hept, -, htr, -, hout⟩ := epClassify_fault_elim hcon
        have := hep t hept
        omega
      refine ⟨?_, ?_, ?_⟩
      · unfold isValidMoveAux
        split
        · simp
        · cases hec : epClassify b fr fc tr tc piece ep with
          | fault => exact absurd hec hnofault
          | reject => simp only [hec]; simp
          | flag isEp => simp only [hec]; split <;> simp
      · rintro (h | h | h)
        · omega
        · omega
        · simp at h
      · intro hout hnotcastle
        unfold isValidMoveAux
        rw [if_neg (hnotcastle piece rfl)]
        cases hec : epClassify b fr fc tr tc piece ep with
        | fault => exact absurd hec hnofault
        | reject => simp [hec]
        | flag isEp =>
          simp only [hec]
          cases isEp with
          | true =>
            obtain ⟨t, -, -, htr, htc, hnotrange, hcrange, -, -, -, cp, -, -, -⟩ :=
              epClassify_flag_true_elim hec
            exfalso
            omega
          | false =>
            have hpm : isValidPieceMove b fr fc tr tc = false := by
              unfold isValidPieceMove
              rw [if_pos (by omega)]
            rw [if_pos ⟨rfl, hpm⟩]

theorem isValidMove_total_in_range_witness :
    ¬(isValidMove wb2 0 0 1 1 none = none) :=
  (isValidMove_total_in_range wb2 0 0 1 1 none (by decide) (by decide)
    (fun t ht => nomatch ht)).1

/-- C10: the AI board update makeMove changes at most the decoded source and
destination squares: every other square keeps its piece, the destination
receives the moved piece (replaced by a queen of the same color when a pawn
lands on row 0 or 7), the source is cleared when distinct from the
destination, and an empty source returns the board unchanged; in particular
no rook is relocated for a two-file king move and no bypassed pawn is
removed for an en-passant-shaped pawn move. -/
theorem makeMove_frame (b : Board) (fromPos toPos : Position)
    (hf1 : 0 ≤ fromPos.row) (hf2 : fromPos.row ≤ 63)
    (ht1 : 0 ≤ toPos.col) (ht2 : toPos.col ≤ 63) :
    (∀ r c : Int,
      ¬(r = (decodeIndex fromPos.row).row ∧ c = (decodeIndex fromPos.row).col) →
      ¬(r = (decodeIndex toPos.col).row ∧ c = (decodeIndex toPos.col).col) →
      makeMove b fromPos toPos r c = b r c) ∧
    (b (decodeIndex fromPos.row).row (decodeIndex fromPos.row).col = none →
      makeMove b fromPos toPos = b) ∧
    (∀ p, b (decodeIndex fromPos.row).row (decodeIndex fromPos.row).col = some p →
      makeMove b fromPos toPos (decodeIndex toPos.col).row (decodeIndex toPos.col).col =
        some (promoteIfNeeded p (decodeIndex toPos.col).row) ∧
      (¬((decodeIndex fromPos.row).row = (decodeIndex toPos.col).row ∧
          (decodeIndex fromPos.row).col = (decodeIndex toPos.col).col) →
        makeMove b fromPos toPos (decodeIndex fromPos.row).row
          (decodeIndex fromPos.row).col = none)) := by
  refine ⟨?_, ?_, ?_⟩
  · intro r c hnf hnt
    unfold makeMove
    cases hb : b (decodeIndex fromPos.row).row (decodeIndex fromPos.row).col with
    | none => rfl
    | some p2 =>
      simp only [Option.elim]
      rw [setRC_ne _ _ _ _ _ _ hnt, setRC_ne _ _ _ _ _ _ hnf]
  · intro hb
    unfold makeMove
    rw [hb]
    rfl
  · intro p hb
    constructor
    · unfold makeMove
      rw [hb]
      simp only [Option.elim]
      exact setRC_eq _ _ _ _
    · intro hne
      unfold makeMove
      rw [hb]
      simp only [Option.elim]
      rw [setRC_ne _ _ _ _ _ _ hne]
      exact setRC_eq _ _ _ _

theorem makeMove_frame_witness :
    makeMove wb1 ⟨52, 0⟩ ⟨0, 44⟩ (decodeIndex (Position.mk 0 44).col).row
        (decodeIndex (Position.mk 0 44).col).col =
      some (promoteIfNeeded ⟨PieceType.pawn, Color.white⟩
        (decodeIndex (Position.mk 0 44).col).row) :=
  ((makeMove_frame wb1 ⟨52, 0⟩ ⟨0, 44⟩ (by decide) (by decide) (by decide) (by decide)).2.2
    ⟨PieceType.pawn, Color.white⟩ (by decide)).1

theorem mem_getAllValidMoves (b : Board) (color : Color) (m : Position) :
    m ∈ getAllValidMoves b color ↔
    ∃ fr fc tr tc : Int,
      (0 ≤ fr ∧ fr ≤ 7) ∧ (0 ≤ fc ∧ fc ≤ 7) ∧ (0 ≤ tr ∧ tr ≤ 7) ∧ (0 ≤ tc ∧ tc ≤ 7) ∧
      (∃ p, b fr fc = some p ∧ p.color = color) ∧
      isValidMove b fr fc tr tc none = some true ∧
      m = ⟨fr * 8 + fc, tr * 8 + tc⟩ := by
  unfold getAllValidMoves
  simp only [List.mem_flatMap, List.mem_range]
  constructor
  · rintro ⟨nfr, hnfr, nfc, hnfc, hm⟩
    cases hb : b (nfr : Int) (nfc : Int) with
    | none => simp only [hb] at hm; cases hm
    | some p =>
      simp only [hb] at hm
      by_cases hc : p.color = color
      · rw [if_pos hc] at hm
        simp only [List.mem_flatMap, List.mem_range] at hm
        obtain ⟨ntr, hntr, ntc, hntc, hm2⟩ := hm
        by_cases hv : isValidMove b (nfr : Int) (nfc : Int) (ntr : Int) (ntc : Int) none =
            some true
        · rw [if_pos hv] at hm2
          simp only [List.mem_singleton] at hm2
          exact ⟨nfr, nfc, ntr, ntc, ⟨by omega, by omega⟩, ⟨by omega, by omega⟩,
            ⟨by omega, by omega⟩, ⟨by omega, by omega⟩, ⟨p, hb, hc⟩, hv, hm2⟩
        · rw [if_neg hv] at hm2
          cases hm2
      · rw [if_neg hc] at hm
        cases hm
  · rintro ⟨fr, fc, tr, tc, ⟨hfr0, hfr7⟩, ⟨hfc0, hfc7⟩, ⟨htr0, htr7⟩, ⟨htc0, htc7⟩,
      ⟨p, hb, hc⟩, hv, hm⟩
    have e1 : ((fr.toNat : Nat) : Int) = fr := Int.toNat_of_nonneg hfr0
    have e2 : ((fc.toNat : Nat) : Int) = fc := Int.toNat_of_nonneg hfc0
    have e3 : ((tr.toNat : Nat) : Int) = tr := Int.toNat_of_nonneg htr0
    have e4 : ((tc.toNat : Nat) : Int) = tc := Int.toNat_of_nonneg htc0
    refine ⟨fr.toNat, by omega, fc.toNat, by omega, ?_⟩
    simp only [e1, e2, hb]
    rw [if_pos hc]
    simp only [List.mem_flatMap, List.mem_range]
    refine ⟨tr.toNat, by omega, tc.toNat, by omega, ?_⟩
    simp only [e3, e4]
    rw [if_pos hv]
    simp only [List.mem_singleton]
    exact hm

theorem mediumLoop_eq (b : Board) :
    ∀ (l : List Position) (best : List Position) (bs : EInt),
      mediumLoop b l best bs =
        (if l.foldl (fun a y => maxE a (EInt.fin (capScore b y))) bs = bs then best
          else []) ++
        l.filter (fun y =>
          decide (EInt.fin (capScore b y) =
            l.foldl (fun a z => maxE a (EInt.fin (capScore b z))) bs)) := by
  intro l
  induction l with
  | nil =>
    intro best bs
    simp [mediumLoop]
  | cons x xs ih =>
    intro best bs
    unfold mediumLoop
    have hfold : (x :: xs).foldl (fun a y => maxE a (EInt.fin (capScore b y))) bs =
        xs.foldl (fun a y => maxE a (EInt.fin (capScore b y)))
          (maxE bs (EInt.fin (capScore b x))) := by
      rw [List.foldl_cons]
    by_cases hlt : EInt.ltE bs (EInt.fin (capScore b x)) = true
    · rw [if_pos hlt, ih, hfold, maxE_right hlt]
      have hinit := foldl_maxE_init (fun y => EInt.fin (capScore b y)) xs
        (EInt.fin (capScore b x))
      have hne : ¬(xs.foldl (fun a y => maxE a (EInt.fin (capScore b y)))
          (EInt.fin (capScore b x)) = bs) := by
        intro hh
        have hlt2 : EInt.ltE bs
            (xs.foldl (fun a y => maxE a (EInt.fin (capScore b y)))
              (EInt.fin (capScore b x))) = true := lt_le_transE hlt hinit
        rw [hh] at hlt2
        rw [ltE_irrefl] at hlt2
        cases hlt2
      rw [if_neg hne, List.filter_cons]
      by_cases heqq : EInt.fin (capScore b x) =
          xs.foldl (fun a y => maxE a (EInt.fin (capScore b y))) (EInt.fin (capScore b x))
      · rw [if_pos heqq.symm, if_pos (by simpa using heqq)]
        simp
      · rw [if_neg (fun hh => heqq hh.symm), if_neg (by simpa using heqq)]
    · rw [if_neg hlt]
      have hlt' : EInt.ltE bs (EInt.fin (capScore b x)) = false := by
        simpa using hlt
      have hmax : maxE bs (EInt.fin (capScore b x)) = bs := maxE_left hlt'
      rw [hfold, hmax]
      by_cases heq2 : bs = EInt.fin (capScore b x)
      · rw [if_pos heq2, ih, List.filter_cons]
        by_cases hMbs : xs.foldl (fun a y => maxE a (EInt.fin (capScore b y))) bs = bs
        · rw [if_pos hMbs, if_pos hMbs,
            if_pos (show (decide (EInt.fin (capScore b x) =
              xs.foldl (fun a z => maxE a (EInt.fin (capScore b z))) bs)) = true by
              rw [hMbs, ← heq2]; simp)]
          simp
        · rw [if_neg hMbs, if_neg hMbs,
            if_neg (show ¬((decide (EInt.fin (capScore b x) =
              xs.foldl (fun a z => maxE a (EInt.fin (capScore b z))) bs)) = true) by
              simp only [decide_eq_true_eq]
              intro hh
              have hinit := foldl_maxE_init (fun y => EInt.fin (capScore b y)) xs bs
              have : EInt.ltE bs
                  (xs.foldl (fun a y => maxE a (EInt.fin (capScore b y))) bs) = false := by
                rw [← hh, ← heq2]
                exact ltE_irrefl bs
              exact hMbs (antisymmE this hinit))]
      · rw [if_neg heq2, ih, List.filter_cons]
        rw [if_neg (show ¬((decide (EInt.fin (capScore b x) =
            xs.foldl (fun a z => maxE a (EInt.fin (capScore b z))) bs)) = true) by
          simp only [decide_eq_true_eq]
          intro hh
          have hinit := foldl_maxE_init (fun y => EInt.fin (capScore b y)) xs bs
          have hlebs : EInt.ltE bs
              (xs.foldl (fun a y => maxE a (EInt.fin (capScore b y))) bs) = false := by
            rw [← hh]
            exact hlt'
          have : xs.foldl (fun a y => maxE a (EInt.fin (capScore b y))) bs = bs :=
            antisymmE hlebs hinit
          rw [this] at hh
          exact heq2 hh.symm)]

theorem hardLoop_spec (b : Board) :
    ∀ (l : List Position) (best : Option Position) (bv : EInt),
      ((∀ x ∈ l, EInt.ltE bv (rootValue b x) = false) → hardLoop b l best bv = best) ∧
      ((∃ x ∈ l, EInt.ltE bv (rootValue b x) = true) →
        ∃ m i, l.get? i = some m ∧ hardLoop b l best bv = some m ∧
          EInt.ltE bv (rootValue b m) = true ∧
          (∀ x ∈ l, EInt.ltE (rootValue b m) (rootValue b x) = false) ∧
          (∀ j y, j < i → l.get? j = some y →
            EInt.ltE (rootValue b y) (rootValue b m) = true)) := by
  intro l
  induction l with
  | nil =>
    intro best bv
    refine ⟨fun _ => rfl, ?_⟩
    rintro ⟨x, hx, -⟩
    cases hx
  | cons z zs ih =>
    intro best bv
    constructor
    · intro hall
      unfold hardLoop
      rw [if_neg (by simp [hall z (List.mem_cons_self z zs)])]
      exact (ih best bv).1 (fun y hy => hall y (List.mem_cons_of_mem z hy))
    · rintro ⟨x, hx, hxlt⟩
      unfold hardLoop
      by_cases hz : EInt.ltE bv (rootValue b z) = true
      · rw [if_pos hz]
        by_cases hzs : ∃ y ∈ zs, EInt.ltE (rootValue b z) (rootValue b y) = true
        · obtain ⟨m, i, hget, hres, hmlt, hub, hfirst⟩ :=
            (ih (some z) (rootValue b z)).2 hzs
          refine ⟨m, i + 1, by simpa using hget, hres, ltE_trans hz hmlt, ?_, ?_⟩
          · intro y hy
            rcases List.mem_cons.mp hy with h | h
            · subst h
              exact ltE_asymm hmlt
            · exact hub y h
          · intro j y hj hgj
            cases j with
            | zero =>
              simp only [List.get?_cons_zero, Option.some.injEq] at hgj
              subst hgj
              exact hmlt
            | succ j2 =>
              exact hfirst j2 y (by omega) (by simpa using hgj)
        · push_neg at hzs
          have hzs2 : ∀ y ∈ zs, EInt.ltE (rootValue b z) (rootValue b y) = false :=
            fun y hy => by simpa using hzs y hy
          have hres := (ih (some z) (rootValue b z)).1 hzs2
          refine ⟨z, 0, rfl, hres, hz, ?_, ?_⟩
          · intro y hy
            rcases List.mem_cons.mp hy with h | h
            · subst h
              exact ltE_irrefl _
            · exact hzs2 y h
          · intro j y hj hgj
            omega
      · rw [if_neg hz]
        have hx2 : x ∈ zs := by
          rcases List.mem_cons.mp hx with h | h
          · subst h
            rw [hxlt] at hz
            exact absurd rfl hz
          · exact h
        obtain ⟨m, i, hget, hres, hmlt, hub, hfirst⟩ := (ih best bv).2 ⟨x, hx2, hxlt⟩
        have hzle : EInt.ltE bv (rootValue b z) = false := by simpa using hz
        refine ⟨m, i + 1, by simpa using hget, hres, hmlt, ?_, ?_⟩
        · intro y hy
          rcases List.mem_cons.mp hy with h | h
          · subst h
            exact ltE_asymm (le_lt_transE hzle hmlt)
          · exact hub y h
        · intro j y hj hgj
          cases j with
          | zero =>
            simp only [List.get?_cons_zero, Option.some.injEq] at hgj
            subst hgj
            exact le_lt_transE hzle hmlt
          | succ j2 =>
            exact hfirst j2 y (by omega) (by simpa using hgj)

theorem minimax_one_ne_negInf (b2 : Board) : minimax 1 b2 false ≠ EInt.negInf := by
  show minimaxStep (minimax 0) b2 false ≠ EInt.negInf
  unfold minimaxStep
  split
  · split
    · simp
    · exact fun h => EInt.noConfusion h
  · rw [if_neg (by simp)]
    apply foldl_minE_ne_negInf
      (fun (m : Position) => minimax 0 (makeMove b2 ⟨m.row, 0⟩ ⟨0, m.col⟩) true)
    · simp
    · intro x hx h
      exact EInt.noConfusion h

theorem rootValue_ne_negInf (b : Board) (m : Position) : rootValue b m ≠ EInt.negInf :=
  minimax_one_ne_negInf (makeMove b ⟨m.row, 0⟩ ⟨0, m.col⟩)

theorem mediumBestMoves_sub (b : Board) :
    ∀ m ∈ mediumBestMoves b, m ∈ getAllValidMoves b Color.black := by
  intro m hm
  unfold mediumBestMoves at hm
  rw [mediumLoop_eq] at hm
  rcases List.mem_append.mp hm with h | h
  · split at h <;> cases h
  · exact List.mem_of_mem_filter h

theorem mediumBestMoves_ne_nil (b : Board) (hne : getAllValidMoves b Color.black ≠ []) :
    mediumBestMoves b ≠ [] := by
  unfold mediumBestMoves
  rw [mediumLoop_eq]
  intro hcon
  rw [List.append_eq_nil] at hcon
  obtain ⟨-, hfil⟩ := hcon
  rcases foldl_maxE_cases (fun y => EInt.fin (capScore b y)) (getAllValidMoves b Color.black)
      EInt.negInf with hM | ⟨x, hx, hM⟩
  · obtain ⟨x0, hx0⟩ := List.exists_mem_of_ne_nil _ hne
    have helem := foldl_maxE_elem (fun y => EInt.fin (capScore b y))
      (getAllValidMoves b Color.black) EInt.negInf x0 hx0
    rw [hM] at helem
    have hlt : EInt.ltE EInt.negInf (EInt.fin (capScore b x0)) = true := by
      simp [EInt.ltE]
    rw [hlt] at helem
    cases helem
  · have hxin : x ∈ (getAllValidMoves b Color.black).filter
        (fun y => decide (EInt.fin (capScore b y) = (getAllValidMoves b Color.black).foldl
          (fun a z => maxE a (EInt.fin (capScore b z))) EInt.negInf)) := by
      refine List.mem_filter.mpr ⟨hx, ?_⟩
      rw [← hM]
      simp
    rw [hfil] at hxin
    cases hxin

theorem getAIMove_mem (b : Board) (d : Difficulty) (rnd : Nat) (m : Position)
    (h : getAIMove b d rnd = some m) : m ∈ getAllValidMoves b Color.black := by
  unfold getAIMove at h
  split at h
  · cases h
  · cases d with
    | easy =>
      have h2 : (getAllValidMoves b Color.black).get?
          (rnd % (getAllValidMoves b Color.black).length) = some m := h
      exact List.get?_mem h2
    | medium =>
      have h2 : (mediumBestMoves b).get? (rnd % (mediumBestMoves b).length) = some m := h
      exact mediumBestMoves_sub b m (List.get?_mem h2)
    | hard =>
      have h2 : hardLoop b (getAllValidMoves b Color.black) none EInt.negInf = some m := h
      by_cases hex : ∃ x ∈ getAllValidMoves b Color.black,
          EInt.ltE EInt.negInf (rootValue b x) = true
      · obtain ⟨m2, i, hget, hres, -, -, -⟩ :=
          (hardLoop_spec b (getAllValidMoves b Color.black) none EInt.negInf).2 hex
        rw [hres] at h2
        injection h2 with he
        subst he
        exact List.get?_mem hget
      · push_neg at hex
        have hres := (hardLoop_spec b (getAllValidMoves b Color.black) none EInt.negInf).1
          (fun x hx => by simpa using hex x hx)
        rw [hres] at h2
        cases h2

theorem getAIMove_ne_none (b : Board) (d : Difficulty) (rnd : Nat)
    (hne : getAllValidMoves b Color.black ≠ []) :
    ¬(getAIMove b d rnd = none) := by
  unfold getAIMove
  rw [if_neg hne]
  cases d with
  | easy =>
    show ¬((getAllValidMoves b Color.black).get?
      (rnd % (getAllValidMoves b Color.black).length) = none)
    intro h
    have hlen : rnd % (getAllValidMoves b Color.black).length <
        (getAllValidMoves b Color.black).length :=
      Nat.mod_lt _ (List.length_pos.mpr hne)
    rw [List.get?_eq_get hlen] at h
    cases h
  | medium =>
    show ¬((mediumBestMoves b).get? (rnd % (mediumBestMoves b).length) = none)
    intro h
    have hbn := mediumBestMoves_ne_nil b hne
    have hlen : rnd % (mediumBestMoves b).length < (mediumBestMoves b).length :=
      Nat.mod_lt _ (List.length_pos.mpr hbn)
    rw [List.get?_eq_get hlen] at h
    cases h
  | hard =>
    show ¬(hardLoop b (getAllValidMoves b Color.black) none EInt.negInf = none)
    intro h
    obtain ⟨x0, hx0⟩ := List.exists_mem_of_ne_nil _ hne
    have hex : ∃ x ∈ getAllValidMoves b Color.black,
        EInt.ltE EInt.negInf (rootValue b x) = true :=
      ⟨x0, hx0, negInf_ltE (rootValue_ne_negInf b x0)⟩
    obtain ⟨m2, i, -, hres, -, -, -⟩ :=
      (hardLoop_spec b (getAllValidMoves b Color.black) none EInt.negInf).2 hex
    rw [hres] at h
    cases h

theorem capScore_of_none {b : Board} {m : Position}
    (h : b (decodeIndex m.col).row (decodeIndex m.col).col = none) : capScore b m = 0 := by
  unfold capScore
  rw [h]

theorem capScore_of_some {b : Board} {m : Position} {p : Piece}
    (h : b (decodeIndex m.col).row (decodeIndex m.col).col = some p) :
    capScore b m = pieceValues p.type := by
  unfold capScore
  rw [h]

theorem pieceValues_pos (t : PieceType) : 1 ≤ pieceValues t := by
  cases t <;> decide

theorem foldl_maxE_zero (b : Board) :
    ∀ (l : List Position), (∀ x ∈ l, capScore b x = 0) →
      l.foldl (fun a z => maxE a (EInt.fin (capScore b z))) (EInt.fin 0) = EInt.fin 0 := by
  intro l
  induction l with
  | nil => intro _; rfl
  | cons z zs ih =>
    intro h
    rw [List.foldl_cons, h z (List.mem_cons_self z zs),
      show maxE (EInt.fin 0) (EInt.fin 0) = EInt.fin 0 from maxE_left (ltE_irrefl _)]
    exact ih (fun x hx => h x (List.mem_cons_of_mem z hx))

/-- C6: on a board where black has at least one legal move, the hard
difficulty returns a legal black move whose 2-ply minimax value (white reply
minimizing, material evaluation at the leaves, terminal scores at no-move
nodes) is at least the value of every other legal black move, and the
returned move is the first one of the enumeration attaining that value. -/
theorem hard_ai_minimax_optimal (b : Board) (rnd : Nat)
    (hne : getAllValidMoves b Color.black ≠ []) :
    ∃ m, getAIMove b Difficulty.hard rnd = some m ∧
      m ∈ getAllValidMoves b Color.black ∧
      (∀ m2 ∈ getAllValidMoves b Color.black,
        EInt.leE (rootValue b m2) (rootValue b m) = true) ∧
      ∃ i, (getAllValidMoves b Color.black).get? i = some m ∧
        ∀ j m2, j < i → (getAllValidMoves b Color.black).get? j = some m2 →
          EInt.ltE (rootValue b m2) (rootValue b m) = true := by
  obtain ⟨x0, hx0⟩ := List.exists_mem_of_ne_nil _ hne
  have hex : ∃ x ∈ getAllValidMoves b Color.black,
      EInt.ltE EInt.negInf (rootValue b x) = true :=
    ⟨x0, hx0, negInf_ltE (rootValue_ne_negInf b x0)⟩
  obtain ⟨m, i, hget, hres, -, hub, hfirst⟩ :=
    (hardLoop_spec b (getAllValidMoves b Color.black) none EInt.negInf).2 hex
  refine ⟨m, ?_, List.get?_mem hget, ?_, i, hget, hfirst⟩
  · unfold getAIMove
    rw [if_neg hne]
    exact hres
  · intro m2 hm2
    unfold EInt.leE
    rw [hub m2 hm2]
    rfl

theorem hard_ai_minimax_optimal_witness :
    getAllValidMoves wb2 Color.black ≠ [] ∧
    (∃ m, getAIMove wb2 Difficulty.hard 0 = some m ∧
      m ∈ getAllValidMoves wb2 Color.black ∧
      (∀ m2 ∈ getAllValidMoves wb2 Color.black,
        EInt.leE (rootValue wb2 m2) (rootValue wb2 m) = true) ∧
      ∃ i, (getAllValidMoves wb2 Color.black).get? i = some m ∧
        ∀ j m2, j < i → (getAllValidMoves wb2 Color.black).get? j = some m2 →
          EInt.ltE (rootValue wb2 m2) (rootValue wb2 m) = true) :=
  ⟨by decide, hard_ai_minimax_optimal wb2 0 (by decide)⟩

/-- C7: whenever some legal black move captures (its decoded destination is
occupied), every move the medium difficulty can return (a member of its
candidate list) is a capture whose captured value attains the maximum
captured value over all legal black moves; when no legal black move captures
anything, the candidate list of the uniform draw is exactly the full legal
move list. -/
theorem medium_ai_capture_policy (b : Board) :
    ((∃ m2 ∈ getAllValidMoves b Color.black,
        ¬(b (decodeIndex m2.col).row (decodeIndex m2.col).col = none)) →
      ∀ m ∈ mediumBestMoves b,
        ¬(b (decodeIndex m.col).row (decodeIndex m.col).col = none) ∧
        ∀ m2 ∈ getAllValidMoves b Color.black, capScore b m2 ≤ capScore b m) ∧
    ((∀ m2 ∈ getAllValidMoves b Color.black,
        b (decodeIndex m2.col).row (decodeIndex m2.col).col = none) →
      mediumBestMoves b = getAllValidMoves b Color.black) := by
  constructor
  · rintro ⟨m2c, hm2c, hocc⟩ m hm
    unfold mediumBestMoves at hm
    rw [mediumLoop_eq] at hm
    rcases List.mem_append.mp hm with h | h
    · split at h <;> cases h
    · have hfin : EInt.fin (capScore b m) =
          (getAllValidMoves b Color.black).foldl
            (fun a z => maxE a (EInt.fin (capScore b z))) EInt.negInf := by
        have h2 := List.of_mem_filter h
        simpa using h2
      have hub : ∀ m2 ∈ getAllValidMoves b Color.black, capScore b m2 ≤ capScore b m := by
        intro m2 hm2
        have helem := foldl_maxE_elem (fun y => EInt.fin (capScore b y))
          (getAllValidMoves b Color.black) EInt.negInf m2 hm2
        rw [← hfin] at helem
        unfold EInt.ltE at helem
        simp only [decide_eq_false_iff_not, not_lt] at helem
        omega
      refine ⟨?_, hub⟩
      cases hocc2 : b (decodeIndex m.col).row (decodeIndex m.col).col with
      | some p => simp
      | none =>
        exfalso
        cases hs : b (decodeIndex m2c.col).row (decodeIndex m2c.col).col with
        | none => exact hocc hs
        | some p2 =>
          have hc1 : capScore b m2c = pieceValues p2.type := capScore_of_some hs
          have hc2 : capScore b m = 0 := capScore_of_none hocc2
          have hc3 := hub m2c hm2c
          have hc4 := pieceValues_pos p2.type
          omega
  · intro hall
    unfold mediumBestMoves
    rw [mediumLoop_eq]
    cases hl : getAllValidMoves b Color.black with
    | nil => simp
    | cons z zs =>
      have hall2 : ∀ x ∈ z :: zs, capScore b x = 0 := by
        intro x hx
        exact capScore_of_none (hall x (by rw [hl]; exact hx))
      have hM : (z :: zs).foldl (fun a y => maxE a (EInt.fin (capScore b y)))
          EInt.negInf = EInt.fin 0 := by
        rw [List.foldl_cons, hall2 z (List.mem_cons_self z zs),
          show maxE EInt.negInf (EInt.fin 0) = EInt.fin 0 from
            maxE_right (by simp [EInt.ltE])]
        exact foldl_maxE_zero b zs (fun x hx => hall2 x (List.mem_cons_of_mem z hx))
      rw [hM, if_neg (fun hh => EInt.noConfusion hh), List.nil_append]
      apply List.filter_eq_self.mpr
      intro a ha
      rw [hall2 a ha]
      simp

theorem medium_ai_capture_policy_witness :
    (∃ m2 ∈ getAllValidMoves wb7 Color.black,
      ¬(wb7 (decodeIndex m2.col).row (decodeIndex m2.col).col = none)) ∧
    (∀ m ∈ mediumBestMoves wb7,
      ¬(wb7 (decodeIndex m.col).row (decodeIndex m.col).col = none) ∧
      ∀ m2 ∈ getAllValidMoves wb7 Color.black, capScore wb7 m2 ≤ capScore wb7 m) :=
  ⟨by decide, (medium_ai_capture_policy wb7).1 (by decide)⟩

/-- C8: getAIMove returns none exactly when black has no legal move (no en
passant target is supplied to the generation), and every returned move is a
member of the black legal move list. -/
theorem getAIMove_none_iff (b : Board) (d : Difficulty) (rnd : Nat) :
    (getAIMove b d rnd = none ↔ getAllValidMoves b Color.black = []) ∧
    (∀ m, getAIMove b d rnd = some m → m ∈ getAllValidMoves b Color.black) := by
  refine ⟨⟨?_, ?_⟩, ?_⟩
  · intro h
    by_contra hne
    exact getAIMove_ne_none b d rnd hne h
  · intro h
    unfold getAIMove
    rw [if_pos h]
  · intro m h
    exact getAIMove_mem b d rnd m h

theorem getAIMove_none_iff_witness :
    getAIMove wb2 Difficulty.easy 0 = some ⟨0, 1⟩ ∧
    (⟨0, 1⟩ : Position) ∈ getAllValidMoves wb2 Color.black :=
  ⟨by decide, (getAIMove_none_iff wb2 Difficulty.easy 0).2 ⟨0, 1⟩ (by decide)⟩

/-- C9: every move getAIMove can return decodes to in-range squares forming a
move accepted by isValidMove with no en passant target, and when the moving
piece is a pawn changing file the destination is occupied: the AI never
returns an en passant capture even when the game context would allow one. -/
theorem ai_moves_validated_without_ep (b : Board) (d : Difficulty) (rnd : Nat)
    (m : Position) (h : getAIMove b d rnd = some m) :
    ∃ fr fc tr tc : Int,
      (0 ≤ fr ∧ fr ≤ 7) ∧ (0 ≤ fc ∧ fc ≤ 7) ∧ (0 ≤ tr ∧ tr ≤ 7) ∧ (0 ≤ tc ∧ tc ≤ 7) ∧
      m.row = fr * 8 + fc ∧ m.col = tr * 8 + tc ∧
      isValidMove b fr fc tr tc none = some true ∧
      (∀ piece, b fr fc = some piece → piece.type = PieceType.pawn → ¬(fc = tc) →
        ¬(b tr tc = none)) := by
  have hmem := getAIMove_mem b d rnd m h
  rw [mem_getAllValidMoves] at hmem
  obtain ⟨fr, fc, tr, tc, hb1, hb2, hb3, hb4, ⟨p, hp, hpc⟩, hv, hm⟩ := hmem
  refine ⟨fr, fc, tr, tc, hb1, hb2, hb3, hb4, by rw [hm], by rw [hm], hv, ?_⟩
  intro piece hp2 hpt hne
  rw [isValidMove_eq_aux b fr fc tr tc none piece (by omega) (by omega) hp2] at hv
  unfold isValidMoveAux at hv
  rw [if_neg (fun hsh => by rw [hpt] at hsh; exact PieceType.noConfusion hsh.1)] at hv
  simp only [epClassify_none_eq] at hv
  by_cases hpm : isValidPieceMove b fr fc tr tc = false
  · rw [if_pos ⟨trivial, hpm⟩] at hv
    simp at hv
  · have hpmt : isValidPieceMove b fr fc tr tc = true := by
      simpa using hpm
    exact validPieceMove_pawn_occupied hp2 hpt hne hpmt

theorem ai_moves_validated_without_ep_witness :
    getAIMove wb2 Difficulty.easy 0 = some ⟨0, 1⟩ ∧
    (∃ fr fc tr tc : Int,
      (0 ≤ fr ∧ fr ≤ 7) ∧ (0 ≤ fc ∧ fc ≤ 7) ∧ (0 ≤ tr ∧ tr ≤ 7) ∧ (0 ≤ tc ∧ tc ≤ 7) ∧
      (Position.mk 0 1).row = fr * 8 + fc ∧ (Position.mk 0 1).col = tr * 8 + tc ∧
      isValidMove wb2 fr fc tr tc none = some true ∧
      (∀ piece, wb2 fr fc = some piece → piece.type = PieceType.pawn → ¬(fc = tc) →
        ¬(wb2 tr tc = none))) :=
  ⟨by decide, ai_moves_validated_without_ep wb2 Difficulty.easy 0 ⟨0, 1⟩ (by decide)⟩
